import Mathlib

/-!
Verification development for the fuzzy product-name matching core of
app.py in the Automated_Invoicing repository.

Modelling conventions:
* Python strings are Lean strings (lists of characters under the hood).
* Python floats are modelled as rationals; the two-decimal rounding done
  by the code (round(x, 2) with round-half-to-even) is modelled exactly.
* The sqlite row dictionaries consumed by the matcher are modelled as
  association lists from column name to an optional string cell, which
  covers the text/NULL values the name column holds.
* The optional jellyfish phonetic metric is a parameter of the matcher:
  instantiating it with the constant-zero function gives the
  library-unavailable branch of the source.
-/

/-- Python whitespace characters recognised by str.strip and str.split. -/
def isPySpace (c : Char) : Bool :=
  c = ' ' || c = '\t' || c = '\n' || c = '\r' || c = '\x0b' || c = '\x0c'

/-- Python str.strip on a character list. -/
def pyStrip (l : List Char) : List Char :=
  ((l.dropWhile isPySpace).reverse.dropWhile isPySpace).reverse

/-- Python str.lower restricted to the Latin repertoire this application
feeds it: ASCII letters plus the precomposed accented letters occurring in
German and French product names. -/
def pyLower (c : Char) : Char :=
  if 'A' ≤ c ∧ c ≤ 'Z' then Char.ofNat (c.toNat + 32)
  else if c = 'Ä' then 'ä' else if c = 'Ö' then 'ö' else if c = 'Ü' then 'ü'
  else if c = 'É' then 'é' else if c = 'È' then 'è' else if c = 'Ê' then 'ê'
  else if c = 'À' then 'à' else if c = 'Â' then 'â' else if c = 'Ç' then 'ç'
  else c

/-- Composite of unicodedata.normalize(NFKD, _) followed by removal of
combining marks, as used by _normalize_text: precomposed accented Latin
letters decompose and lose their diacritic, stray combining marks
(U+0300..U+036F) vanish, all other characters of the repertoire used here
are untouched. -/
def nfkdStrip (c : Char) : List Char :=
  if 0x300 ≤ c.toNat ∧ c.toNat ≤ 0x36F then []
  else if c = 'ä' then ['a'] else if c = 'ö' then ['o'] else if c = 'ü' then ['u']
  else if c = 'é' ∨ c = 'è' ∨ c = 'ê' ∨ c = 'ë' then ['e']
  else if c = 'à' ∨ c = 'â' ∨ c = 'á' then ['a']
  else if c = 'î' ∨ c = 'ï' ∨ c = 'í' then ['i']
  else if c = 'ô' ∨ c = 'ó' then ['o']
  else if c = 'û' ∨ c = 'ù' ∨ c = 'ú' then ['u']
  else if c = 'ç' then ['c'] else if c = 'ñ' then ['n']
  else [c]

/-- Models re.sub of a digit, an underscore or hyphen, and a digit into a
fraction with a slash, scanning left to right with non-overlapping matches
(the fraction step of _normalize_text). -/
def fracSub : List Char → List Char
  | d1 :: sep :: d2 :: rest =>
    if d1.isDigit ∧ (sep = '_' ∨ sep = '-') ∧ d2.isDigit then
      d1 :: '/' :: d2 :: fracSub rest
    else d1 :: fracSub (sep :: d2 :: rest)
  | l => l

/-- The punctuation characters that _normalize_text replaces by spaces. -/
def punctChars : List Char :=
  [',', ';', ':', '.', '(', ')', '[', ']', '\x7b', '\x7d', '\\', '-', '_',
   '+', '*', '|', '~', '!', '?', '\x27', '"']

/-- Python str.split with no argument: split on runs of whitespace,
dropping empty pieces. -/
def splitWsAux : List Char → List Char → List (List Char)
  | [], cur => if cur.isEmpty then [] else [cur]
  | c :: rest, cur =>
    if isPySpace c then
      if cur.isEmpty then splitWsAux rest [] else cur :: splitWsAux rest []
    else splitWsAux rest (cur ++ [c])

def splitWs (l : List Char) : List (List Char) := splitWsAux l []

/-- The _normalize_text pipeline of app.py on a character list: strip and
lowercase, NFKD decomposition with combining-mark removal, sharp-s to ss,
fraction rewriting, punctuation to spaces, whitespace collapse, and the
final umlaut spellings. -/
def normList (l : List Char) : List Char :=
  let s1 := (pyStrip l).map pyLower
  let s2 := s1.flatMap nfkdStrip
  let s3 := s2.flatMap (fun c => if c = 'ß' then ['s', 's'] else [c])
  let s4 := fracSub s3
  let s5 := s4.map (fun c => if punctChars.contains c then ' ' else c)
  let s6 := List.intercalate [' '] (splitWs s5)
  s6.flatMap (fun c =>
    if c = 'ä' then ['a', 'e'] else if c = 'ö' then ['o', 'e']
    else if c = 'ü' then ['u', 'e'] else [c])

/-- app.py _normalize_text. -/
def normalize_text (s : String) : String := String.mk (normList s.toList)

example : normalize_text "Käse-Räucherwürste" = "kase raucherwurste" := by decide

example : normalize_text "kaese raeucherwuerste" = "kaese raeucherwuerste" := by decide

example : normalize_text "  Comté   Laib 2kg " = "comte laib 2kg" := by decide

example : normalize_text "1_4 Laib" = "1/4 laib" := by decide

/-- Round-half-to-even to an integer, the rounding Python round applies. -/
def rhe (x : ℚ) : ℤ :=
  if x - ⌊x⌋ < 1 / 2 then ⌊x⌋
  else if 1 / 2 < x - ⌊x⌋ then ⌊x⌋ + 1
  else if ⌊x⌋ % 2 = 0 then ⌊x⌋ else ⌊x⌋ + 1

/-- Python round(x, 2): round to two decimal places, halves to even. -/
def round2 (x : ℚ) : ℚ := (rhe (x * 100) : ℚ) / 100

theorem rhe_nonneg (x : ℚ) (h : 0 ≤ x) : 0 ≤ rhe x := by
  have hf : (0 : ℤ) ≤ ⌊x⌋ := Int.floor_nonneg.mpr h
  unfold rhe
  split_ifs <;> omega

theorem rhe_le (x : ℚ) (m : ℤ) (h : x ≤ (m : ℚ)) : rhe x ≤ m := by
  have hf : ⌊x⌋ ≤ m := by
    have h2 : ⌊x⌋ ≤ ⌊(m : ℚ)⌋ := Int.floor_le_floor h
    simpa using h2
  have hkey : 1 / 2 ≤ x - (⌊x⌋ : ℚ) → ⌊x⌋ + 1 ≤ m := by
    intro hge
    by_contra hc
    have hm : ⌊x⌋ = m := by omega
    rw [hm] at hge
    linarith
  unfold rhe
  split_ifs with h1 h2
  · exact hf
  · exact hkey (le_of_lt h2)
  · exact hf
  · exact hkey (by linarith)

theorem round2_nonneg (x : ℚ) (h : 0 ≤ x) : 0 ≤ round2 x := by
  unfold round2
  have := rhe_nonneg (x * 100) (by linarith)
  positivity

theorem round2_le_100 (x : ℚ) (h : x ≤ 100) : round2 x ≤ 100 := by
  unfold round2
  have h1 : x * 100 ≤ ((10000 : ℤ) : ℚ) := by push_cast; linarith
  have h2 := rhe_le (x * 100) 10000 h1
  have h3 : ((rhe (x * 100)) : ℚ) ≤ 10000 := by exact_mod_cast h2
  linarith

/-- Search core of the find_longest_match model: longest matching block in
the window, k descending, then start in a ascending, then start in b
ascending, so the first hit is the longest block occurring earliest in a
and then earliest in b. -/
def flmSearch (a b : List Char) (alo ahi blo bhi : ℕ) : Option (ℕ × ℕ × ℕ) :=
  (List.range (min (ahi - alo) (bhi - blo))).findSome? (fun d =>
    (List.range (ahi - alo + 1 - (min (ahi - alo) (bhi - blo) - d))).findSome? (fun di =>
      (List.range (bhi - blo + 1 - (min (ahi - alo) (bhi - blo) - d))).findSome? (fun dj =>
        if (a.drop (alo + di)).take (min (ahi - alo) (bhi - blo) - d)
            = (b.drop (blo + dj)).take (min (ahi - alo) (bhi - blo) - d) then
          some (alo + di, blo + dj, min (ahi - alo) (bhi - blo) - d)
        else none)))

/-- Model of difflib.SequenceMatcher find_longest_match on the window
a[alo:ahi] and b[blo:bhi]: the longest matching contiguous block, with
ties resolved earliest in a and then earliest in b, which is the
documented behaviour with no junk.  The autojunk heuristic, which only
fires on strings of at least 200 characters, is outside the repertoire of
the product names matched here and is not modelled. -/
def flm (a b : List Char) (alo ahi blo bhi : ℕ) : ℕ × ℕ × ℕ :=
  (flmSearch a b alo ahi blo bhi).getD (alo, blo, 0)

theorem findSome_exists {α β : Type} (f : α → Option β) :
    ∀ (l : List α) (b : β), l.findSome? f = some b → ∃ a ∈ l, f a = some b := by
  intro l
  induction l with
  | nil => intro b h; simp [List.findSome?] at h
  | cons hd tl ih =>
    intro b h
    rw [List.findSome?] at h
    cases hfa : f hd with
    | some v =>
      rw [hfa] at h
      exact ⟨hd, List.mem_cons_self hd tl, by simp at h; rw [hfa, h]⟩
    | none =>
      rw [hfa] at h
      obtain ⟨a, ha, hfa2⟩ := ih b h
      exact ⟨a, List.mem_cons_of_mem hd ha, hfa2⟩

theorem flm_cases (a b : List Char) (alo ahi blo bhi : ℕ) :
    flm a b alo ahi blo bhi = (alo, blo, 0) ∨
      (alo ≤ (flm a b alo ahi blo bhi).1 ∧
       (flm a b alo ahi blo bhi).1 + (flm a b alo ahi blo bhi).2.2 ≤ ahi ∧
       blo ≤ (flm a b alo ahi blo bhi).2.1 ∧
       (flm a b alo ahi blo bhi).2.1 + (flm a b alo ahi blo bhi).2.2 ≤ bhi ∧
       0 < (flm a b alo ahi blo bhi).2.2) := by
  unfold flm
  cases hF : flmSearch a b alo ahi blo bhi with
  | none => left; rfl
  | some t =>
    right
    unfold flmSearch at hF
    obtain ⟨d, hd, hinner⟩ := findSome_exists _ _ _ hF
    obtain ⟨di, hdi, hinner2⟩ := findSome_exists _ _ _ hinner
    obtain ⟨dj, hdj, hinner3⟩ := findSome_exists _ _ _ hinner2
    rw [List.mem_range] at hd hdi hdj
    have hmin1 : min (ahi - alo) (bhi - blo) ≤ ahi - alo := min_le_left _ _
    have hmin2 : min (ahi - alo) (bhi - blo) ≤ bhi - blo := min_le_right _ _
    by_cases hc : (a.drop (alo + di)).take (min (ahi - alo) (bhi - blo) - d)
        = (b.drop (blo + dj)).take (min (ahi - alo) (bhi - blo) - d)
    · rw [if_pos hc] at hinner3
      have ht : t = (alo + di, blo + dj, min (ahi - alo) (bhi - blo) - d) :=
        (Option.some_inj.mp hinner3).symm
      subst ht
      simp only [Option.getD_some]
      omega
    · rw [if_neg hc] at hinner3
      exact absurd hinner3 (by simp)

/-- Total size of the matching blocks of difflib get_matching_blocks:
take the longest match, then recurse on the windows to its left and to
its right.  The fuel argument dominates the a-side window width, which
shrinks at every recursive call, so fuel equal to the length of a is
always sufficient at the top-level call. -/
def mtF : ℕ → List Char → List Char → ℕ → ℕ → ℕ → ℕ → ℕ
  | 0, _, _, _, _, _, _ => 0
  | fuel + 1, a, b, alo, ahi, blo, bhi =>
    if (flm a b alo ahi blo bhi).2.2 = 0 then 0
    else
      mtF fuel a b alo (flm a b alo ahi blo bhi).1 blo (flm a b alo ahi blo bhi).2.1 +
      (flm a b alo ahi blo bhi).2.2 +
      mtF fuel a b ((flm a b alo ahi blo bhi).1 + (flm a b alo ahi blo bhi).2.2) ahi
        ((flm a b alo ahi blo bhi).2.1 + (flm a b alo ahi blo bhi).2.2) bhi

/-- Number of matching characters counted by difflib for the full pair. -/
def matchingTotal (a b : List Char) : ℕ := mtF a.length a b 0 a.length 0 b.length

theorem mtF_le : ∀ (fuel : ℕ) (a b : List Char) (alo ahi blo bhi : ℕ),
    mtF fuel a b alo ahi blo bhi ≤ ahi - alo ∧
    mtF fuel a b alo ahi blo bhi ≤ bhi - blo := by
  intro fuel
  induction fuel with
  | zero => intro a b alo ahi blo bhi; simp [mtF]
  | succ n ih =>
    intro a b alo ahi blo bhi
    rw [mtF]
    split_ifs with hk
    · simp
    · rcases flm_cases a b alo ahi blo bhi with hz | hb
      · rw [hz] at hk; simp at hk
      · obtain ⟨h1, h2, h3, h4, h5⟩ := hb
        have ihl := ih a b alo (flm a b alo ahi blo bhi).1 blo (flm a b alo ahi blo bhi).2.1
        have ihr := ih a b ((flm a b alo ahi blo bhi).1 + (flm a b alo ahi blo bhi).2.2) ahi
          ((flm a b alo ahi blo bhi).2.1 + (flm a b alo ahi blo bhi).2.2) bhi
        omega

/-- difflib SequenceMatcher ratio as an exact rational: twice the number
of matching characters over the total length, and 1.0 on two empty
sequences, as in difflib. -/
def seqRat (a b : List Char) : ℚ :=
  if a.length + b.length = 0 then 1
  else (2 * (matchingTotal a b : ℚ)) / ((a.length : ℚ) + (b.length : ℚ))

theorem seqRat_nonneg (a b : List Char) : 0 ≤ seqRat a b := by
  unfold seqRat
  split_ifs
  · norm_num
  · positivity

theorem seqRat_le_one (a b : List Char) : seqRat a b ≤ 1 := by
  unfold seqRat
  split_ifs with h
  · exact le_refl 1
  · have hm := mtF_le a.length a b 0 a.length 0 b.length
    have hma : matchingTotal a b ≤ a.length := by
      have := hm.1; unfold matchingTotal; omega
    have hmb : matchingTotal a b ≤ b.length := by
      have := hm.2; unfold matchingTotal; omega
    have hpos : (0 : ℚ) < (a.length : ℚ) + (b.length : ℚ) := by
      have : 0 < a.length + b.length := Nat.pos_of_ne_zero h
      exact_mod_cast this
    rw [div_le_one hpos]
    have : (matchingTotal a b : ℚ) + (matchingTotal a b : ℚ) ≤ (a.length : ℚ) + (b.length : ℚ) := by
      have h1 : (matchingTotal a b : ℚ) ≤ (a.length : ℚ) := by exact_mod_cast hma
      have h2 : (matchingTotal a b : ℚ) ≤ (b.length : ℚ) := by exact_mod_cast hmb
      linarith
    linarith

/-- app.py _fuzzy_ratio: difflib ratio of the normalized strings, scaled
to 0..100 and rounded to two decimals. -/
def fuzzy_ratio (a b : String) : ℚ :=
  round2 (seqRat (normalize_text a).toList (normalize_text b).toList * 100)

theorem fuzzy_ratio_nonneg (a b : String) : 0 ≤ fuzzy_ratio a b := by
  unfold fuzzy_ratio
  apply round2_nonneg
  have := seqRat_nonneg (normalize_text a).toList (normalize_text b).toList
  linarith

theorem fuzzy_ratio_le_100 (a b : String) : fuzzy_ratio a b ≤ 100 := by
  unfold fuzzy_ratio
  apply round2_le_100
  have := seqRat_le_one (normalize_text a).toList (normalize_text b).toList
  linarith

/-- The domain-aware token synonym map of app.py _tokenize, in source
order; lookup of a missing key returns the token itself. -/
def token_map : List (String × String) :=
  [("laib", "wheel"), ("rad", "wheel"), ("wheel", "wheel"), ("meule", "wheel"),
   ("kart", "karton"), ("karton", "karton"), ("kartonage", "karton"),
   ("keil", "wedge"), ("wedge", "wedge"),
   ("bloc", "block"), ("blocs", "block"), ("block", "block"),
   ("eckig", "square"), ("square", "square"), ("rund", "wheel"),
   ("mild-wurzig", "mildwurzig"), ("mild-würzig", "mildwurzig"), ("mildwurzig", "mildwurzig"),
   ("doux", "mild"), ("reserve", "reserve"), ("alpage", "alpage"),
   ("mois", "months"), ("monat", "months"), ("monate", "months"),
   ("mte", "months"), ("mt", "months"),
   ("portion", "portion"), ("portions", "portion"),
   ("rouleaux", "rolls"), ("rouleau", "rolls"), ("rolls", "rolls")]

def fold_token (t : String) : String :=
  (((token_map.find? (fun p => p.1 == t)).map (fun p => p.2)).getD t)

/-- The packaging, unit and certification stopwords dropped by _tokenize. -/
def stop_tokens : List String :=
  ["kg", "g", "gr", "gram", "stk", "st", "pc", "pcs", "pk", "pack", "ml", "l",
   "x", "a", "à", "per", "karton", "box", "tray", "case", "bio", "aop", "igp"]

/-- app.py _tokenize: normalize, split on whitespace, fold through the
synonym map, deduplicate into a set, and drop single-character tokens and
stopwords. -/
def tokenize (s : String) : Finset String :=
  ((((splitWs (normalize_text s).toList).map String.mk).map fold_token).toFinset).filter
    (fun t => 1 < t.length ∧ t ∉ stop_tokens)

/-- app.py _token_set_score: Dice coefficient of the token sets, scaled to
0..100 and rounded to two decimals; 0.0 when either set is empty. -/
def token_set_score (a b : String) : ℚ :=
  if tokenize a = ∅ ∨ tokenize b = ∅ then 0
  else
    round2 ((2 * (((tokenize a) ∩ (tokenize b)).card : ℚ)) /
      (((tokenize a).card : ℚ) + ((tokenize b).card : ℚ)) * 100)

theorem dice_bounds (A B : Finset String) (hA : A.Nonempty) (hB : B.Nonempty) :
    0 ≤ round2 (2 * ((A ∩ B).card : ℚ) / ((A.card : ℚ) + (B.card : ℚ)) * 100) ∧
    round2 (2 * ((A ∩ B).card : ℚ) / ((A.card : ℚ) + (B.card : ℚ)) * 100) ≤ 100 := by
  have ha : 0 < A.card := Finset.card_pos.mpr hA
  have hb : 0 < B.card := Finset.card_pos.mpr hB
  have hpos : (0 : ℚ) < (A.card : ℚ) + (B.card : ℚ) := by
    have : 0 < A.card + B.card := Nat.add_pos_left ha _
    exact_mod_cast this
  have hia : (A ∩ B).card ≤ A.card := Finset.card_le_card Finset.inter_subset_left
  have hib : (A ∩ B).card ≤ B.card := Finset.card_le_card Finset.inter_subset_right
  have hfrac : 2 * ((A ∩ B).card : ℚ) / ((A.card : ℚ) + (B.card : ℚ)) ≤ 1 := by
    rw [div_le_one hpos]
    have h1 : ((A ∩ B).card : ℚ) ≤ (A.card : ℚ) := by exact_mod_cast hia
    have h2 : ((A ∩ B).card : ℚ) ≤ (B.card : ℚ) := by exact_mod_cast hib
    linarith
  have hnn : (0 : ℚ) ≤ 2 * ((A ∩ B).card : ℚ) / ((A.card : ℚ) + (B.card : ℚ)) := by
    positivity
  constructor
  · apply round2_nonneg; nlinarith
  · apply round2_le_100; nlinarith

theorem token_set_score_nonneg (a b : String) : 0 ≤ token_set_score a b := by
  unfold token_set_score
  split_ifs with h
  · exact le_refl 0
  · push_neg at h
    exact (dice_bounds (tokenize a) (tokenize b)
      (Finset.nonempty_iff_ne_empty.mpr h.1) (Finset.nonempty_iff_ne_empty.mpr h.2)).1

theorem token_set_score_le_100 (a b : String) : token_set_score a b ≤ 100 := by
  unfold token_set_score
  split_ifs with h
  · norm_num
  · push_neg at h
    exact (dice_bounds (tokenize a) (tokenize b)
      (Finset.nonempty_iff_ne_empty.mpr h.1) (Finset.nonempty_iff_ne_empty.mpr h.2)).2

/-- The character trigram set of app.py _trigram_jaccard: normalized
string with spaces removed; below three characters the whole remainder is
the single gram, and the empty remainder gives the empty set. -/
def grams (s : String) : Finset String :=
  if ((normalize_text s).toList.filter (fun c => ¬ c = ' ')).length < 3 then
    (if (normalize_text s).toList.filter (fun c => ¬ c = ' ') = [] then ∅
     else {String.mk ((normalize_text s).toList.filter (fun c => ¬ c = ' '))})
  else
    ((List.range (((normalize_text s).toList.filter (fun c => ¬ c = ' ')).length - 2)).map
      (fun i => String.mk ((((normalize_text s).toList.filter (fun c => ¬ c = ' ')).drop i).take 3))).toFinset

/-- app.py _trigram_jaccard: Jaccard overlap of the trigram sets, scaled
to 0..100 and rounded to two decimals; 0.0 when either set is empty. -/
def trigram_jaccard (a b : String) : ℚ :=
  if grams a = ∅ ∨ grams b = ∅ then 0
  else
    round2 (((((grams a) ∩ (grams b)).card : ℚ) / (((grams a) ∪ (grams b)).card : ℚ)) * 100)

theorem jaccard_bounds (A B : Finset String) (hA : A.Nonempty) :
    0 ≤ round2 (((A ∩ B).card : ℚ) / (((A ∪ B).card : ℚ)) * 100) ∧
    round2 (((A ∩ B).card : ℚ) / (((A ∪ B).card : ℚ)) * 100) ≤ 100 := by
  have hu : 0 < (A ∪ B).card :=
    Finset.card_pos.mpr (hA.mono Finset.subset_union_left)
  have hupos : (0 : ℚ) < ((A ∪ B).card : ℚ) := by exact_mod_cast hu
  have hi : (A ∩ B).card ≤ (A ∪ B).card :=
    Finset.card_le_card Finset.inter_subset_union
  have hfrac : ((A ∩ B).card : ℚ) / ((A ∪ B).card : ℚ) ≤ 1 := by
    rw [div_le_one hupos]
    exact_mod_cast hi
  have hnn : (0 : ℚ) ≤ ((A ∩ B).card : ℚ) / ((A ∪ B).card : ℚ) := by positivity
  constructor
  · apply round2_nonneg; nlinarith
  · apply round2_le_100; nlinarith

theorem trigram_jaccard_nonneg (a b : String) : 0 ≤ trigram_jaccard a b := by
  unfold trigram_jaccard
  split_ifs with h
  · exact le_refl 0
  · push_neg at h
    exact (jaccard_bounds (grams a) (grams b) (Finset.nonempty_iff_ne_empty.mpr h.1)).1

theorem trigram_jaccard_le_100 (a b : String) : trigram_jaccard a b ≤ 100 := by
  unfold trigram_jaccard
  split_ifs with h
  · norm_num
  · push_neg at h
    exact (jaccard_bounds (grams a) (grams b) (Finset.nonempty_iff_ne_empty.mpr h.1)).2

/-- A sqlite row as consumed by the matcher: an association list from
column name to an optional string cell (None or text). -/
abbrev Row : Type := List (String × Option String)

/-- Models str(r.get(name_col) or "") on a text/NULL cell: a missing
column, a NULL value and the empty string all collapse to the empty
string. -/
def rowName (r : Row) (col : String) : String :=
  match (List.find? (fun p => p.1 == col) r) with
  | some (_, some s) => s
  | _ => ""

/-- Combined metric of both matching passes: the maximum of the sequence
ratio, the token-set score, the trigram Jaccard score and the phonetic
score s4.  The source computes s4 with jellyfish when importable and
0.0 otherwise; the function s4 is that already-scaled optional metric. -/
def maxMetrics (s4 : String → String → ℚ) (q c : String) : ℚ :=
  max (max (max (fuzzy_ratio q c) (token_set_score q c)) (trigram_jaccard q c)) (s4 q c)

/-- Per-candidate score of the first pass of app.py _best_match_base_row:
the combined metric, multiplied by 0.9 when query and candidate share no
normalized token. -/
def pass1Score (s4 : String → String → ℚ) (q c : String) : ℚ :=
  if ((tokenize q) ∩ (tokenize c)) = ∅ then maxMetrics s4 q c * (9 / 10)
  else maxMetrics s4 q c

/-- Python substring containment p in s on the character lists. -/
def isSub (p s : String) : Bool :=
  (List.range (s.toList.length + 1)).any
    (fun i => (s.toList.drop i).take p.toList.length == p.toList)

/-- Per-candidate score of app.py _best_match_base_row_relaxed: no anchor
penalty; when one normalized string contains the other and the token-set
score is at least 60, the score is raised to at least 90. -/
def pass2Score (s4 : String → String → ℚ) (q c : String) : ℚ :=
  if (isSub (normalize_text q) (normalize_text c)
        || isSub (normalize_text c) (normalize_text q))
      ∧ 60 ≤ token_set_score q c then
    max (maxMetrics s4 q c) 90
  else maxMetrics s4 q c

theorem maxMetrics_nonneg (s4 : String → String → ℚ) (q c : String) :
    0 ≤ maxMetrics s4 q c := by
  unfold maxMetrics
  have h := fuzzy_ratio_nonneg q c
  calc (0 : ℚ) ≤ fuzzy_ratio q c := h
    _ ≤ _ := le_max_of_le_left (le_max_of_le_left (le_max_left _ _))

theorem maxMetrics_le_100 (s4 : String → String → ℚ) (q c : String)
    (h4 : s4 q c ≤ 100) : maxMetrics s4 q c ≤ 100 := by
  unfold maxMetrics
  have h1 := fuzzy_ratio_le_100 q c
  have h2 := token_set_score_le_100 q c
  have h3 := trigram_jaccard_le_100 q c
  simp only [max_le_iff]
  exact ⟨⟨⟨h1, h2⟩, h3⟩, h4⟩

theorem pass1Score_nonneg (s4 : String → String → ℚ) (q c : String) :
    0 ≤ pass1Score s4 q c := by
  unfold pass1Score
  have := maxMetrics_nonneg s4 q c
  split_ifs <;> nlinarith

theorem pass1Score_le_100 (s4 : String → String → ℚ) (q c : String)
    (h4 : s4 q c ≤ 100) : pass1Score s4 q c ≤ 100 := by
  unfold pass1Score
  have h0 := maxMetrics_nonneg s4 q c
  have h1 := maxMetrics_le_100 s4 q c h4
  split_ifs <;> nlinarith

theorem pass2Score_nonneg (s4 : String → String → ℚ) (q c : String) :
    0 ≤ pass2Score s4 q c := by
  unfold pass2Score
  have := maxMetrics_nonneg s4 q c
  split_ifs
  · exact le_trans this (le_max_left _ _)
  · exact this

theorem pass2Score_le_100 (s4 : String → String → ℚ) (q c : String)
    (h4 : s4 q c ≤ 100) : pass2Score s4 q c ≤ 100 := by
  unfold pass2Score
  have h1 := maxMetrics_le_100 s4 q c h4
  split_ifs
  · simp only [max_le_iff]
    exact ⟨h1, by norm_num⟩
  · exact h1

theorem pass1Score_le_pass2Score (s4 : String → String → ℚ) (q c : String) :
    pass1Score s4 q c ≤ pass2Score s4 q c := by
  have h0 := maxMetrics_nonneg s4 q c
  have hle1 : pass1Score s4 q c ≤ maxMetrics s4 q c := by
    unfold pass1Score
    split_ifs <;> nlinarith
  have hle2 : maxMetrics s4 q c ≤ pass2Score s4 q c := by
    unfold pass2Score
    split_ifs
    · exact le_max_left _ _
    · exact le_refl _
  exact le_trans hle1 hle2

/-- The accumulator step of the best-candidate loops of app.py: skip rows
with an empty name, otherwise take the candidate when its score strictly
exceeds the best so far. -/
def bmStep (f : Row → ℚ) (ncol : String) (acc : Option Row × ℚ) (r : Row) :
    Option Row × ℚ :=
  if rowName r ncol = "" then acc
  else if acc.2 < f r then (some r, f r) else acc

/-- The loop of both best-match functions, starting from best = None and
best score = -1.0. -/
def bestFold (f : Row → ℚ) (ncol : String) (rows : List Row) : Option Row × ℚ :=
  rows.foldl (bmStep f ncol) (none, -1)

/-- app.py _best_match_base_row (first, anchor-penalized pass). -/
def best_match_base_row (s4 : String → String → ℚ) (base_name : String)
    (base_rows : List Row) (name_col : String) : Option Row × ℚ :=
  bestFold (fun r => pass1Score s4 base_name (rowName r name_col)) name_col base_rows

/-- app.py _best_match_base_row_relaxed (second, relaxed pass). -/
def best_match_base_row_relaxed (s4 : String → String → ℚ) (base_name : String)
    (base_rows : List Row) (name_col : String) : Option Row × ℚ :=
  bestFold (fun r => pass2Score s4 base_name (rowName r name_col)) name_col base_rows

theorem bf_spec (f : Row → ℚ) (ncol : String) :
    ∀ (rows : List Row) (acc : Option Row × ℚ),
      (List.foldl (bmStep f ncol) acc rows = acc ∧
        ∀ r ∈ rows, rowName r ncol ≠ "" → f r ≤ acc.2) ∨
      (∃ l1 r l2, rows = l1 ++ r :: l2 ∧ rowName r ncol ≠ "" ∧
        List.foldl (bmStep f ncol) acc rows = (some r, f r) ∧ acc.2 < f r ∧
        (∀ r' ∈ l1, rowName r' ncol ≠ "" → f r' < f r) ∧
        (∀ r' ∈ l2, rowName r' ncol ≠ "" → f r' ≤ f r)) := by
  intro rows
  induction rows with
  | nil =>
    intro acc
    left
    exact ⟨rfl, by simp⟩
  | cons hd tl ih =>
    intro acc
    rw [List.foldl_cons]
    by_cases hname : rowName hd ncol = ""
    · have hstep : bmStep f ncol acc hd = acc := by
        unfold bmStep; rw [if_pos hname]
      rw [hstep]
      rcases ih acc with ⟨he, hall⟩ | ⟨l1, r, l2, heq, hn, hfold, hgt, hl1, hl2⟩
      · left
        refine ⟨he, ?_⟩
        intro r hr hrn
        rcases List.mem_cons.mp hr with rfl | hmem
        · exact absurd hname hrn
        · exact hall r hmem hrn
      · right
        refine ⟨hd :: l1, r, l2, by rw [heq, List.cons_append], hn, hfold, hgt, ?_, hl2⟩
        intro r' hr' hrn
        rcases List.mem_cons.mp hr' with rfl | hmem
        · exact absurd hname hrn
        · exact hl1 r' hmem hrn
    · by_cases hlt : acc.2 < f hd
      · have hstep : bmStep f ncol acc hd = (some hd, f hd) := by
          unfold bmStep; rw [if_neg hname, if_pos hlt]
        rw [hstep]
        rcases ih (some hd, f hd) with ⟨he, hall⟩ | ⟨l1, r, l2, heq, hn, hfold, hgt, hl1, hl2⟩
        · right
          exact ⟨[], hd, tl, rfl, hname, he, hlt, by simp, hall⟩
        · right
          refine ⟨hd :: l1, r, l2, by rw [heq, List.cons_append], hn, hfold, lt_trans hlt hgt, ?_, hl2⟩
          intro r' hr' hrn
          rcases List.mem_cons.mp hr' with rfl | hmem
          · exact hgt
          · exact hl1 r' hmem hrn
      · have hstep : bmStep f ncol acc hd = acc := by
          unfold bmStep; rw [if_neg hname, if_neg hlt]
        rw [hstep]
        push_neg at hlt
        rcases ih acc with ⟨he, hall⟩ | ⟨l1, r, l2, heq, hn, hfold, hgt, hl1, hl2⟩
        · left
          refine ⟨he, ?_⟩
          intro r hr hrn
          rcases List.mem_cons.mp hr with rfl | hmem
          · exact hlt
          · exact hall r hmem hrn
        · right
          refine ⟨hd :: l1, r, l2, by rw [heq, List.cons_append], hn, hfold, hgt, ?_, hl2⟩
          intro r' hr' hrn
          rcases List.mem_cons.mp hr' with rfl | hmem
          · exact lt_of_le_of_lt hlt hgt
          · exact hl1 r' hmem hrn

theorem bf_all_empty (f : Row → ℚ) (ncol : String) (rows : List Row)
    (h : ∀ r ∈ rows, rowName r ncol = "") : bestFold f ncol rows = (none, -1) := by
  rcases bf_spec f ncol rows (none, -1) with ⟨he, _⟩ | ⟨l1, r, l2, heq, hn, _, _, _, _⟩
  · exact he
  · exact absurd (h r (by rw [heq]; exact List.mem_append_right l1 (List.mem_cons_self r l2))) hn

theorem bf_fst_none (f : Row → ℚ) (ncol : String) (rows : List Row)
    (h : (bestFold f ncol rows).1 = none) : bestFold f ncol rows = (none, -1) := by
  rcases bf_spec f ncol rows (none, -1) with ⟨he, _⟩ | ⟨l1, r, l2, heq, hn, hfold, _, _, _⟩
  · exact he
  · rw [show List.foldl (bmStep f ncol) (none, -1) rows = bestFold f ncol rows from rfl] at hfold
    rw [hfold] at h
    simp at h

theorem bf_argmax (f : Row → ℚ) (ncol : String) (rows : List Row) (r : Row) (s : ℚ)
    (h : bestFold f ncol rows = (some r, s)) :
    ∃ l1 l2, rows = l1 ++ r :: l2 ∧ rowName r ncol ≠ "" ∧ s = f r ∧
      (∀ r' ∈ rows, rowName r' ncol ≠ "" → f r' ≤ s) ∧
      (∀ r' ∈ l1, rowName r' ncol ≠ "" → f r' < s) := by
  rcases bf_spec f ncol rows (none, -1) with ⟨he, _⟩ | ⟨l1, r0, l2, heq, hn, hfold, _, hl1, hl2⟩
  · rw [show List.foldl (bmStep f ncol) (none, -1) rows = bestFold f ncol rows from rfl] at he
    rw [h] at he
    exact absurd (congrArg Prod.fst he) (by simp)
  · rw [show List.foldl (bmStep f ncol) (none, -1) rows = bestFold f ncol rows from rfl] at hfold
    rw [h] at hfold
    have hr0 : r0 = r := by
      have := congrArg Prod.fst hfold
      simpa using this.symm
    have hs : s = f r := by
      have := congrArg Prod.snd hfold
      rw [hr0] at this
      simpa using this
    subst hr0
    refine ⟨l1, l2, heq, hn, hs, ?_, ?_⟩
    · intro r' hr' hrn
      rw [heq] at hr'
      rw [hs]
      rcases List.mem_append.mp hr' with hm | hm
      · exact le_of_lt (hl1 r' hm hrn)
      · rcases List.mem_cons.mp hm with rfl | hm2
        · exact le_refl _
        · exact hl2 r' hm2 hrn
    · intro r' hr' hrn
      rw [hs]
      exact hl1 r' hr' hrn

theorem bf_exists_some (f : Row → ℚ) (ncol : String) (rows : List Row)
    (hpos : ∀ r ∈ rows, rowName r ncol ≠ "" → 0 ≤ f r)
    (hne : ∃ r ∈ rows, rowName r ncol ≠ "") :
    ∃ r s, bestFold f ncol rows = (some r, s) := by
  rcases bf_spec f ncol rows (none, -1) with ⟨he, hall⟩ | ⟨l1, r0, l2, heq, hn, hfold, _, _, _⟩
  · obtain ⟨r, hr, hrn⟩ := hne
    have h1 := hall r hr hrn
    have h2 := hpos r hr hrn
    simp only at h1
    linarith
  · exact ⟨r0, f r0, hfold⟩

theorem bf_mono (f g : Row → ℚ) (ncol : String)
    (h : ∀ r, rowName r ncol ≠ "" → f r ≤ g r) :
    ∀ (rows : List Row) (a1 a2 : Option Row × ℚ), a1.2 ≤ a2.2 →
      (List.foldl (bmStep f ncol) a1 rows).2 ≤ (List.foldl (bmStep g ncol) a2 rows).2 := by
  intro rows
  induction rows with
  | nil => intro a1 a2 hle; simpa using hle
  | cons hd tl ih =>
    intro a1 a2 hle
    rw [List.foldl_cons, List.foldl_cons]
    apply ih
    by_cases hname : rowName hd ncol = ""
    · unfold bmStep
      rw [if_pos hname, if_pos hname]
      exact hle
    · have hfg := h hd hname
      unfold bmStep
      rw [if_neg hname, if_neg hname]
      by_cases h1 : a1.2 < f hd <;> by_cases h2 : a2.2 < g hd
      · rw [if_pos h1, if_pos h2]; exact hfg
      · rw [if_pos h1, if_neg h2]
        push_neg at h2
        simp only
        exact le_trans hfg h2
      · rw [if_neg h1, if_pos h2]
        simp only
        exact le_trans hle (le_of_lt h2)
      · rw [if_neg h1, if_neg h2]; exact hle

/-- The two-pass accept/reject decision of the synonym import loop in
app.py synonyms_upload (and rebuild_synonyms_into_preise): accept the
first-pass best when present and at least the primary threshold,
otherwise retry with the relaxed pass against the relaxed threshold,
otherwise report the definition unmatched (None). -/
def match_one (s4 : String → String → ℚ) (threshold rthr : ℚ)
    (rows : List Row) (ncol base : String) : Option (Row × ℚ) :=
  if (best_match_base_row s4 base rows ncol).1 = none ∨
      (best_match_base_row s4 base rows ncol).2 < threshold then
    if (best_match_base_row_relaxed s4 base rows ncol).1 = none ∨
        (best_match_base_row_relaxed s4 base rows ncol).2 < rthr then none
    else (best_match_base_row_relaxed s4 base rows ncol).1.map
      (fun r => (r, (best_match_base_row_relaxed s4 base rows ncol).2))
  else (best_match_base_row s4 base rows ncol).1.map
    (fun r => (r, (best_match_base_row s4 base rows ncol).2))

/-- One iteration of the synonym batch loop of synonyms_upload: an empty
candidate pool or a rejected match increments the unmatched counter, an
accepted match appends the persisted definition row (customer, matched
canonical name, alias, score). -/
def pbStep (s4 : String → String → ℚ) (threshold rthr : ℚ)
    (cache : String → List Row) (ncol : String)
    (acc : List (String × String × String × ℚ) × ℕ)
    (d : String × String × String) : List (String × String × String × ℚ) × ℕ :=
  if cache d.1 = [] then (acc.1, acc.2 + 1)
  else
    match match_one s4 threshold rthr (cache d.1) ncol d.2.1 with
    | none => (acc.1, acc.2 + 1)
    | some (r, sc) => (acc.1 ++ [(d.1, rowName r ncol, d.2.2, sc)], acc.2)

/-- The synonym batch loop of synonyms_upload over the collected
(customer, base name, alias) triples, returning the accepted definitions
and the unmatched count. -/
def process_batch (s4 : String → String → ℚ) (threshold rthr : ℚ)
    (cache : String → List Row) (ncol : String)
    (defs : List (String × String × String)) :
    List (String × String × String × ℚ) × ℕ :=
  defs.foldl (pbStep s4 threshold rthr cache ncol) ([], 0)

/-- Value domain of Python float for the threshold configuration: a
finite value, modelled as an exact rational, or one of the special
values nan, +inf and -inf that float() can also produce. -/
inductive PyFloat where
  | num (q : ℚ)
  | nan
  | inf
  | ninf
  deriving DecidableEq

/-- Value of all digit characters of a list read as a base-10 natural. -/
def digitsVal (l : List Char) : ℕ := l.foldl (fun a c => a * 10 + (c.toNat - 48)) 0

/-- Optional leading sign of a Python float literal. -/
def floatSign : List Char → ℤ × List Char
  | '-' :: rest => (-1, rest)
  | '+' :: rest => (1, rest)
  | t => (1, t)

/-- Python underscore rule for numeric literals: every underscore must
have a digit immediately before and immediately after it. -/
def underscoresOkAux : Option Char → List Char → Bool
  | _, [] => true
  | prev, c :: rest =>
    if c = '_' then
      (match prev with | some p => p.isDigit | none => false) &&
      (match rest with | r :: _ => r.isDigit | [] => false) &&
      underscoresOkAux (some c) rest
    else underscoresOkAux (some c) rest

def underscoresOk (l : List Char) : Bool := underscoresOkAux none l

/-- Split a literal at the first exponent marker e or E, when present. -/
def splitOnExp : List Char → List Char × Option (List Char)
  | [] => ([], none)
  | c :: rest =>
    if c = 'e' ∨ c = 'E' then ([], some rest)
    else ((c :: (splitOnExp rest).1), (splitOnExp rest).2)

/-- Mantissa of a float literal: digits with at most one decimal point
and at least one digit overall, as an exact rational. -/
def mantParse (l : List Char) : Option ℚ :=
  match List.splitOn '.' l with
  | [ip] =>
    if ¬ ip = [] ∧ ip.all Char.isDigit then some ((digitsVal ip : ℚ)) else none
  | [ip, fp] =>
    if (¬ ip = [] ∨ ¬ fp = []) ∧ ip.all Char.isDigit ∧ fp.all Char.isDigit then
      some ((digitsVal ip : ℚ) + (digitsVal fp : ℚ) / 10 ^ fp.length)
    else none
  | _ => none

/-- Exponent of a float literal: optional sign and nonempty digits. -/
def expParse (l : List Char) : Option ℤ :=
  if ¬ (floatSign l).2 = [] ∧ (floatSign l).2.all Char.isDigit then
    some ((floatSign l).1 * (digitsVal (floatSign l).2 : ℤ))
  else none

/-- Unsigned finite decimal forms accepted by Python float():
underscore-grouped digits, optional decimal point, optional exponent. -/
def decParse (l : List Char) : Option ℚ :=
  if underscoresOk l then
    match splitOnExp (l.filter (fun c => ¬ c = '_')) with
    | (m, none) => mantParse m
    | (m, some e) =>
      match mantParse m, expParse e with
      | some q, some z => some (q * (10 : ℚ) ^ z)
      | _, _ => none
  else none

/-- Python float() on a string: surrounding whitespace and an optional
sign, then the case-insensitive special forms nan, inf and infinity, or a
finite decimal literal; none models a raised ValueError. -/
def pyFloatParse (s : String) : Option PyFloat :=
  match floatSign (pyStrip s.toList) with
  | (sg, u) =>
    if u.map pyLower = "nan".toList then some PyFloat.nan
    else if u.map pyLower = "inf".toList ∨ u.map pyLower = "infinity".toList then
      some (if sg = -1 then PyFloat.ninf else PyFloat.inf)
    else (decParse u).map (fun q => PyFloat.num ((sg : ℚ) * q))

/-- The finite-rational projection of float(), used by the spec-modelled
parse_decimal whose codomain in the spec is float or null: the non-finite
results nan and inf lie outside the rational model and map to none. -/
def floatParse (s : String) : Option ℚ :=
  match pyFloatParse s with
  | some (PyFloat.num q) => some q
  | _ => none

/-- Strip of the euro sign and spaces applied by parse_decimal before
any numeric interpretation. -/
def pd_strip (s : String) : List Char :=
  s.toList.filter (fun c => ¬ (c = '€' ∨ c = ' '))

/-- The string handed to float() by parse_decimal: with exactly one comma,
all periods are removed and the comma becomes the decimal point; otherwise
the stripped text is parsed as is. -/
def pd_text (s : String) : String :=
  if (pd_strip s).count ',' = 1 then
    String.mk (((pd_strip s).filter (fun c => ¬ c = '.')).map
      (fun c => if c = ',' then '.' else c))
  else String.mk (pd_strip s)

/-- Modelled from the spec: the decimal parser parse_decimal was removed
from the source (src/app.py only keeps the note "Legacy parsing removed"),
so this follows spec section 4.2 word for word: strip the euro sign and
spaces; with exactly one comma, drop all periods and read the comma as the
decimal separator; otherwise attempt a direct float parse; none on any
unparseable input. -/
def parse_decimal (s : String) : Option ℚ := floatParse (pd_text s)

/-- First clamp step with Python comparison semantics: a value below 0
becomes 0; nan compares false and passes through, -inf clamps to 0. -/
def pyClampLo : PyFloat → PyFloat
  | PyFloat.num q => if q < 0 then PyFloat.num 0 else PyFloat.num q
  | PyFloat.ninf => PyFloat.num 0
  | w => w

/-- Second clamp step with Python comparison semantics: a value above 100
becomes 100; nan compares false and passes through, +inf clamps to 100. -/
def pyClampHi : PyFloat → PyFloat
  | PyFloat.num q => if 100 < q then PyFloat.num 100 else PyFloat.num q
  | PyFloat.inf => PyFloat.num 100
  | w => w

/-- The sequential clamp of get_match_threshold and get_relaxed_threshold:
both comparisons are false on nan, so nan escapes the clamp unchanged. -/
def clamp_0_100_py (v : PyFloat) : PyFloat := pyClampHi (pyClampLo v)

/-- Subtraction of 10 on Python floats: nan and the infinities absorb. -/
def pfSub10 : PyFloat → PyFloat
  | PyFloat.num q => PyFloat.num (q - 10)
  | w => w

/-- Python max(v, 0.0): returns 0.0 exactly when 0.0 > v, so nan is
returned unchanged. -/
def pfMax0 : PyFloat → PyFloat
  | PyFloat.num q => if q < 0 then PyFloat.num 0 else PyFloat.num q
  | PyFloat.ninf => PyFloat.num 0
  | w => w

/-- The pre-clamp value of get_match_threshold: float() of MATCH_THRESHOLD,
80 when the variable is missing, empty or unparseable. -/
def gmtRaw : Option String → PyFloat
  | none => PyFloat.num 80
  | some s => if s = "" then PyFloat.num 80 else (pyFloatParse s).getD (PyFloat.num 80)

/-- app.py get_match_threshold: the parsed MATCH_THRESHOLD value through
the sequential clamp, which nan escapes. -/
def get_match_threshold (envT : Option String) : PyFloat :=
  clamp_0_100_py (gmtRaw envT)

/-- The pre-clamp value of get_relaxed_threshold: float() of
MATCH_THRESHOLD_RELAXED, the primary threshold minus 10 when missing or
empty, max(primary - 10, 0) when unparseable. -/
def grtRaw (envT : Option String) : Option String → PyFloat
  | none => pfSub10 (get_match_threshold envT)
  | some s =>
    if s = "" then pfSub10 (get_match_threshold envT)
    else (pyFloatParse s).getD (pfMax0 (pfSub10 (get_match_threshold envT)))

/-- app.py get_relaxed_threshold: the parsed relaxed value through the
sequential clamp. -/
def get_relaxed_threshold (envT envR : Option String) : PyFloat :=
  clamp_0_100_py (grtRaw envT envR)

theorem clamp_py_cases (v : PyFloat) :
    (∃ q : ℚ, clamp_0_100_py v = PyFloat.num q ∧ 0 ≤ q ∧ q ≤ 100) ∨
    (clamp_0_100_py v = PyFloat.nan ∧ v = PyFloat.nan) := by
  cases v with
  | num q =>
    left
    unfold clamp_0_100_py
    simp only [pyClampLo]
    split_ifs with h0
    · simp only [pyClampHi]
      rw [if_neg (by norm_num : ¬ (100 : ℚ) < 0)]
      exact ⟨0, rfl, le_refl 0, by norm_num⟩
    · simp only [pyClampHi]
      push_neg at h0
      split_ifs with h1
      · exact ⟨100, rfl, by norm_num, le_refl 100⟩
      · push_neg at h1
        exact ⟨q, rfl, h0, h1⟩
  | nan => right; exact ⟨rfl, rfl⟩
  | inf => left; exact ⟨100, rfl, by norm_num, le_refl 100⟩
  | ninf =>
    left
    refine ⟨0, ?_, le_refl 0, by norm_num⟩
    unfold clamp_0_100_py
    simp only [pyClampLo, pyClampHi]
    rw [if_neg (by norm_num : ¬ (100 : ℚ) < 0)]

theorem get_match_threshold_cases (envT : Option String) :
    (∃ q : ℚ, get_match_threshold envT = PyFloat.num q ∧ 0 ≤ q ∧ q ≤ 100) ∨
    (get_match_threshold envT = PyFloat.nan ∧
      ∃ s, envT = some s ∧ ¬ s = "" ∧ pyFloatParse s = some PyFloat.nan) := by
  unfold get_match_threshold
  rcases clamp_py_cases (gmtRaw envT) with ⟨q, hq, h0, h1⟩ | ⟨hc, harg⟩
  · exact Or.inl ⟨q, hq, h0, h1⟩
  · right
    refine ⟨hc, ?_⟩
    cases envT with
    | none => exact absurd harg (by simp [gmtRaw])
    | some s =>
      simp only [gmtRaw] at harg
      by_cases hs : s = ""
      · rw [if_pos hs] at harg
        exact absurd harg (by simp)
      · refine ⟨s, rfl, hs, ?_⟩
        rw [if_neg hs] at harg
        cases hp : pyFloatParse s with
        | none =>
          rw [hp] at harg
          exact absurd harg (by simp)
        | some w =>
          rw [hp] at harg
          simp only [Option.getD_some] at harg
          exact congrArg some harg

theorem get_relaxed_threshold_cases (envT envR : Option String) :
    (∃ q : ℚ, get_relaxed_threshold envT envR = PyFloat.num q ∧ 0 ≤ q ∧ q ≤ 100) ∨
    get_relaxed_threshold envT envR = PyFloat.nan := by
  unfold get_relaxed_threshold
  rcases clamp_py_cases (grtRaw envT envR) with ⟨q, hq, h0, h1⟩ | ⟨hc, _⟩
  · exact Or.inl ⟨q, hq, h0, h1⟩
  · exact Or.inr hc

theorem decParse_point (l ip fp : List Char)
    (hu : underscoresOk l = true)
    (hf : l.filter (fun c => ¬ c = '_') = l)
    (hsplit : splitOnExp l = (l, none))
    (hdot : List.splitOn '.' l = [ip, fp])
    (hcond : (¬ ip = [] ∨ ¬ fp = []) ∧ ip.all Char.isDigit ∧ fp.all Char.isDigit) :
    decParse l = some ((digitsVal ip : ℚ) + (digitsVal fp : ℚ) / 10 ^ fp.length) := by
  unfold decParse
  rw [if_pos hu, hf, hsplit]
  show mantParse l = _
  unfold mantParse
  rw [hdot]
  show (if (¬ ip = [] ∨ ¬ fp = []) ∧ ip.all Char.isDigit ∧ fp.all Char.isDigit then
      some ((digitsVal ip : ℚ) + (digitsVal fp : ℚ) / 10 ^ fp.length) else none) = _
  rw [if_pos hcond]

theorem floatParse_num (s : String) (u : List Char) (q : ℚ)
    (hsign : floatSign (pyStrip s.toList) = (1, u))
    (hnan : ¬ u.map pyLower = "nan".toList)
    (hinf : ¬ (u.map pyLower = "inf".toList ∨ u.map pyLower = "infinity".toList))
    (hdec : decParse u = some q) :
    floatParse s = some q := by
  have hpf : pyFloatParse s = some (PyFloat.num q) := by
    unfold pyFloatParse
    rw [hsign]
    show (if u.map pyLower = "nan".toList then some PyFloat.nan
      else if u.map pyLower = "inf".toList ∨ u.map pyLower = "infinity".toList then
        some (if (1 : ℤ) = -1 then PyFloat.ninf else PyFloat.inf)
      else (decParse u).map (fun v => PyFloat.num (((1 : ℤ) : ℚ) * v))) =
      some (PyFloat.num q)
    rw [if_neg hnan, if_neg hinf, hdec]
    simp only [Option.map_some']
    have hq : ((1 : ℤ) : ℚ) * q = q := by push_cast; ring
    rw [hq]
  unfold floatParse
  rw [hpf]

theorem match_one_isSome (s4 : String → String → ℚ) (T R : ℚ) (hT : 0 ≤ T) (hR : 0 ≤ R)
    (rows : List Row) (ncol base : String) :
    (match_one s4 T R rows ncol base).isSome = true ↔
      (T ≤ (best_match_base_row s4 base rows ncol).2 ∨
       R ≤ (best_match_base_row_relaxed s4 base rows ncol).2) := by
  unfold match_one
  split_ifs with h1 h2
  · constructor
    · intro hsome; simp at hsome
    · intro hor
      exfalso
      rcases hor with hp1 | hp2
      · rcases h1 with hn | hlt
        · have := bf_fst_none _ _ _ hn
          rw [show best_match_base_row s4 base rows ncol =
            bestFold (fun r => pass1Score s4 base (rowName r ncol)) ncol rows from rfl] at hp1
          rw [this] at hp1
          simp only at hp1
          linarith
        · linarith
      · rcases h2 with hn | hlt
        · have := bf_fst_none _ _ _ hn
          rw [show best_match_base_row_relaxed s4 base rows ncol =
            bestFold (fun r => pass2Score s4 base (rowName r ncol)) ncol rows from rfl] at hp2
          rw [this] at hp2
          simp only at hp2
          linarith
        · linarith
  · push_neg at h2
    constructor
    · intro _; right; exact h2.2
    · intro _
      rcases h2 with ⟨hne, _⟩
      cases hopt : (best_match_base_row_relaxed s4 base rows ncol).1 with
      | none => exact absurd hopt hne
      | some r => simp [hopt]
  · push_neg at h1
    constructor
    · intro _; left; exact h1.2
    · intro _
      rcases h1 with ⟨hne, _⟩
      cases hopt : (best_match_base_row s4 base rows ncol).1 with
      | none => exact absurd hopt hne
      | some r => simp [hopt]

theorem match_one_accepted (s4 : String → String → ℚ) (T R : ℚ)
    (rows : List Row) (ncol base : String) (r : Row) (sc : ℚ)
    (h : match_one s4 T R rows ncol base = some (r, sc)) :
    (T ≤ sc ∨ R ≤ sc) ∧
      (sc = pass1Score s4 base (rowName r ncol) ∨
       sc = pass2Score s4 base (rowName r ncol)) := by
  unfold match_one at h
  split_ifs at h with h1 h2
  · push_neg at h2
    rw [Option.map_eq_some'] at h
    obtain ⟨r0, hopt, hfb⟩ := h
    obtain ⟨hreq, hsc⟩ := Prod.ext_iff.mp hfb
    simp only at hreq hsc
    subst hreq
    have hbm : best_match_base_row_relaxed s4 base rows ncol = (some r0, sc) :=
      Prod.ext_iff.mpr ⟨hopt, hsc⟩
    constructor
    · right; rw [← hsc]; exact h2.2
    · right
      obtain ⟨_, _, _, _, hfr, _, _⟩ := bf_argmax _ _ _ _ _ hbm
      exact hfr
  · push_neg at h1
    rw [Option.map_eq_some'] at h
    obtain ⟨r0, hopt, hfb⟩ := h
    obtain ⟨hreq, hsc⟩ := Prod.ext_iff.mp hfb
    simp only at hreq hsc
    subst hreq
    have hbm : best_match_base_row s4 base rows ncol = (some r0, sc) :=
      Prod.ext_iff.mpr ⟨hopt, hsc⟩
    constructor
    · left; rw [← hsc]; exact h1.2
    · left
      obtain ⟨_, _, _, _, hfr, _, _⟩ := bf_argmax _ _ _ _ _ hbm
      exact hfr

theorem pb_count (s4 : String → String → ℚ) (T R : ℚ)
    (cache : String → List Row) (ncol : String) :
    ∀ (defs : List (String × String × String))
      (acc : List (String × String × String × ℚ) × ℕ),
      (List.foldl (pbStep s4 T R cache ncol) acc defs).1.length +
        (List.foldl (pbStep s4 T R cache ncol) acc defs).2 =
      acc.1.length + acc.2 + defs.length := by
  intro defs
  induction defs with
  | nil => intro acc; simp
  | cons d tl ih =>
    intro acc
    rw [List.foldl_cons]
    rw [ih]
    unfold pbStep
    split_ifs with hc
    · simp only [List.length_cons]
      omega
    · cases match_one s4 T R (cache d.1) ncol d.2.1 with
      | none => simp only [List.length_cons]; omega
      | some p =>
        simp only [List.length_append, List.length_cons, List.length_nil]
        omega

theorem pb_mem (s4 : String → String → ℚ) (T R : ℚ)
    (cache : String → List Row) (ncol : String)
    (P : ℚ → Prop)
    (hP : ∀ rows base r sc, match_one s4 T R rows ncol base = some (r, sc) → P sc) :
    ∀ (defs : List (String × String × String))
      (acc : List (String × String × String × ℚ) × ℕ),
      (∀ e ∈ acc.1, P e.2.2.2) →
      ∀ e ∈ (List.foldl (pbStep s4 T R cache ncol) acc defs).1, P e.2.2.2 := by
  intro defs
  induction defs with
  | nil => intro acc hacc; simpa using hacc
  | cons d tl ih =>
    intro acc hacc
    rw [List.foldl_cons]
    apply ih
    unfold pbStep
    split_ifs with hc
    · exact hacc
    · cases hmo : match_one s4 T R (cache d.1) ncol d.2.1 with
      | none => exact hacc
      | some p =>
        intro e he
        simp only at he
        rcases List.mem_append.mp he with hm | hm
        · exact hacc e hm
        · rcases List.mem_singleton.mp hm with rfl
          obtain ⟨r0, sc0⟩ := p
          exact hP _ _ _ _ hmo

theorem bf_full (f : Row → ℚ) (ncol : String) (rows : List Row)
    (hpos : ∀ r, rowName r ncol ≠ "" → 0 ≤ f r)
    (hub : ∀ r, rowName r ncol ≠ "" → f r ≤ 100) :
    (bestFold f ncol rows = (none, -1) ↔ ∀ r ∈ rows, rowName r ncol = "") ∧
    ((∃ r ∈ rows, rowName r ncol ≠ "") →
      ∃ r s, bestFold f ncol rows = (some r, s) ∧ 0 ≤ s ∧ s ≤ 100) := by
  have hex : (∃ r ∈ rows, rowName r ncol ≠ "") →
      ∃ r s, bestFold f ncol rows = (some r, s) ∧ 0 ≤ s ∧ s ≤ 100 := by
    intro hne
    obtain ⟨r, s, heq⟩ := bf_exists_some f ncol rows (fun r hr hrn => hpos r hrn) hne
    obtain ⟨_, _, _, hn, hs, _, _⟩ := bf_argmax f ncol rows r s heq
    exact ⟨r, s, heq, hs ▸ hpos r hn, hs ▸ hub r hn⟩
  constructor
  · constructor
    · intro heq
      by_contra hc
      push_neg at hc
      obtain ⟨r, s, heq2, _, _⟩ := hex hc
      rw [heq] at heq2
      exact absurd (congrArg Prod.fst heq2) (by simp)
    · exact bf_all_empty f ncol rows
  · exact hex

theorem round2_intCast (n : ℤ) : round2 (n : ℚ) = (n : ℚ) := by
  unfold round2 rhe
  have h1 : ⌊((n : ℚ) * 100)⌋ = n * 100 := by
    rw [show ((n : ℚ) * 100) = (((n * 100 : ℤ)) : ℚ) by push_cast; ring]
    exact Int.floor_intCast _
  rw [h1]
  rw [if_pos (by push_cast; norm_num)]
  push_cast
  ring

theorem round2_100 : round2 (100 : ℚ) = 100 := by
  have := round2_intCast 100
  push_cast at this
  exact this

theorem eval_norm_ab : normalize_text "ab" = "ab" := by decide

theorem eval_fuzzy_ab : fuzzy_ratio "ab" "ab" = 100 := by
  unfold fuzzy_ratio
  rw [eval_norm_ab]
  unfold seqRat
  rw [show matchingTotal "ab".toList "ab".toList = 2 from by decide]
  rw [show ("ab".toList.length) = 2 from by decide]
  rw [if_neg (by norm_num)]
  rw [show ((2 : ℚ) * (2 : ℕ) / ((2 : ℕ) + (2 : ℕ)) * 100) = 100 by push_cast; norm_num]
  exact round2_100

theorem eval_tss_ab : token_set_score "ab" "ab" = 100 := by
  unfold token_set_score
  rw [show tokenize "ab" = {"ab"} from by decide]
  rw [if_neg (by decide)]
  rw [show (({"ab"} : Finset String) ∩ {"ab"}) = {"ab"} from by decide]
  rw [show (({"ab"} : Finset String).card) = 1 from by decide]
  rw [show ((2 : ℚ) * (1 : ℕ) / ((1 : ℕ) + (1 : ℕ)) * 100) = 100 by push_cast; norm_num]
  exact round2_100

theorem eval_tj_ab : trigram_jaccard "ab" "ab" = 100 := by
  unfold trigram_jaccard
  rw [show grams "ab" = {"ab"} from by decide]
  rw [if_neg (by decide)]
  rw [show (({"ab"} : Finset String) ∩ {"ab"}) = {"ab"} from by decide]
  rw [show (({"ab"} : Finset String) ∪ {"ab"}) = {"ab"} from by decide]
  rw [show (({"ab"} : Finset String).card) = 1 from by decide]
  rw [show (((1 : ℕ) : ℚ) / ((1 : ℕ) : ℚ) * 100) = 100 by push_cast; norm_num]
  exact round2_100

theorem eval_max_ab : maxMetrics (fun _ _ => 0) "ab" "ab" = 100 := by
  unfold maxMetrics
  rw [eval_fuzzy_ab, eval_tss_ab, eval_tj_ab]
  norm_num

theorem eval_pass1_ab : pass1Score (fun _ _ => 0) "ab" "ab" = 100 := by
  unfold pass1Score
  rw [if_neg (by decide)]
  exact eval_max_ab

theorem eval_pass2_ab : pass2Score (fun _ _ => 0) "ab" "ab" = 100 := by
  unfold pass2Score
  split_ifs with h
  · rw [eval_max_ab]; norm_num
  · exact eval_max_ab

theorem eval_rowName_ab : rowName [("name", some "ab")] "name" = "ab" := by decide

theorem eval_bm_ab :
    best_match_base_row (fun _ _ => 0) "ab" [[("name", some "ab")]] "name" =
      (some [("name", some "ab")], 100) := by
  unfold best_match_base_row bestFold
  rw [List.foldl_cons, List.foldl_nil]
  unfold bmStep
  rw [eval_rowName_ab]
  rw [if_neg (by decide : ¬ ("ab" : String) = "")]
  simp only [eval_rowName_ab, eval_pass1_ab]
  rw [if_pos (by norm_num : ((none : Option Row), (-1 : ℚ)).2 < 100)]

theorem eval_bm_rel_ab :
    best_match_base_row_relaxed (fun _ _ => 0) "ab" [[("name", some "ab")]] "name" =
      (some [("name", some "ab")], 100) := by
  unfold best_match_base_row_relaxed bestFold
  rw [List.foldl_cons, List.foldl_nil]
  unfold bmStep
  rw [eval_rowName_ab]
  rw [if_neg (by decide : ¬ ("ab" : String) = "")]
  simp only [eval_rowName_ab, eval_pass2_ab]
  rw [if_pos (by norm_num : ((none : Option Row), (-1 : ℚ)).2 < 100)]

/-- C1: a synonym definition is accepted exactly when the pass-1
anchor-penalized best score reaches the primary threshold T or, failing
that, the pass-2 relaxed best score reaches the relaxed threshold R;
otherwise it is counted unmatched, and the batch loop processes every
definition, the accepted and unmatched counts always summing to the batch
size. -/
theorem C1_two_pass_acceptance (s4 : String → String → ℚ) (T R : ℚ)
    (hT : 0 ≤ T) (hR : 0 ≤ R) :
    (∀ (rows : List Row) (ncol base : String),
      (match_one s4 T R rows ncol base).isSome = true ↔
        (T ≤ (best_match_base_row s4 base rows ncol).2 ∨
         R ≤ (best_match_base_row_relaxed s4 base rows ncol).2)) ∧
    (∀ (cache : String → List Row) (ncol : String)
        (defs : List (String × String × String)),
      (process_batch s4 T R cache ncol defs).1.length +
        (process_batch s4 T R cache ncol defs).2 = defs.length) := by
  constructor
  · intro rows ncol base
    exact match_one_isSome s4 T R hT hR rows ncol base
  · intro cache ncol defs
    have h := pb_count s4 T R cache ncol defs ([], 0)
    unfold process_batch
    simpa using h

/-- C1 witness: at thresholds 80 and 70 the singleton batch with an exact
alias match is accepted, so the match emits a definition and the counts
add up. -/
theorem C1_witness :
    ((match_one (fun _ _ => 0) 80 70 [[("name", some "ab")]] "name" "ab").isSome = true ↔
      (80 ≤ (best_match_base_row (fun _ _ => 0) "ab" [[("name", some "ab")]] "name").2 ∨
       70 ≤ (best_match_base_row_relaxed (fun _ _ => 0) "ab" [[("name", some "ab")]] "name").2)) ∧
    (process_batch (fun _ _ => 0) 80 70 (fun _ => [[("name", some "ab")]]) "name"
        [("c", "ab", "alias")]).1.length +
      (process_batch (fun _ _ => 0) 80 70 (fun _ => [[("name", some "ab")]]) "name"
        [("c", "ab", "alias")]).2 = 1 :=
  ⟨(C1_two_pass_acceptance (fun _ _ => 0) 80 70 (by norm_num) (by norm_num)).1
      [[("name", some "ab")]] "name" "ab",
   (C1_two_pass_acceptance (fun _ _ => 0) 80 70 (by norm_num) (by norm_num)).2
      (fun _ => [[("name", some "ab")]]) "name" [("c", "ab", "alias")]⟩

/-- C2: in the first pass, the per-candidate combined score is the
maximum of the four metric scores (sequence ratio, token-set, trigram
Jaccard, and the optional phonetic metric, which contributes 0 when the
library is unavailable), multiplied by 0.9 exactly when the query and the
candidate share zero normalized tokens after synonym folding, observed
through the matcher on a one-candidate pool. -/
theorem C2_pass1_combined_score (s4 : String → String → ℚ) (q ncol : String) (r : Row)
    (hname : rowName r ncol ≠ "") :
    best_match_base_row s4 q [r] ncol =
      (some r,
        if (tokenize q ∩ tokenize (rowName r ncol)) = ∅ then
          max (max (max (fuzzy_ratio q (rowName r ncol)) (token_set_score q (rowName r ncol)))
            (trigram_jaccard q (rowName r ncol))) (s4 q (rowName r ncol)) * (9 / 10)
        else
          max (max (max (fuzzy_ratio q (rowName r ncol)) (token_set_score q (rowName r ncol)))
            (trigram_jaccard q (rowName r ncol))) (s4 q (rowName r ncol))) := by
  have hp : pass1Score s4 q (rowName r ncol) =
      (if (tokenize q ∩ tokenize (rowName r ncol)) = ∅ then
        max (max (max (fuzzy_ratio q (rowName r ncol)) (token_set_score q (rowName r ncol)))
          (trigram_jaccard q (rowName r ncol))) (s4 q (rowName r ncol)) * (9 / 10)
      else
        max (max (max (fuzzy_ratio q (rowName r ncol)) (token_set_score q (rowName r ncol)))
          (trigram_jaccard q (rowName r ncol))) (s4 q (rowName r ncol))) := by
    unfold pass1Score maxMetrics
    rfl
  have hpos : ((none : Option Row), (-1 : ℚ)).2 < pass1Score s4 q (rowName r ncol) := by
    have := pass1Score_nonneg s4 q (rowName r ncol)
    simp only
    linarith
  unfold best_match_base_row bestFold
  rw [List.foldl_cons, List.foldl_nil]
  unfold bmStep
  rw [if_neg hname]
  rw [if_pos hpos]
  show (some r, pass1Score s4 q (rowName r ncol)) = _
  rw [hp]

/-- C2 witness: on the one-candidate pool with identical alias and name,
all metrics agree at 100 and an anchor is shared, so the combined score is
the unpenalized maximum. -/
theorem C2_witness :
    best_match_base_row (fun _ _ => 0) "ab" [[("name", some "ab")]] "name" =
      (some [("name", some "ab")], 100) := by
  have h := C2_pass1_combined_score (fun _ _ => 0) "ab" "name" [("name", some "ab")]
    (by rw [eval_rowName_ab]; decide)
  rw [h, eval_rowName_ab]
  rw [if_neg (by decide : ¬ (tokenize "ab" ∩ tokenize "ab") = ∅)]
  rw [eval_fuzzy_ab, eval_tss_ab, eval_tj_ab]
  norm_num

/-- C3: in the relaxed pass no anchor penalty is applied; the
per-candidate score is the maximum of the four metrics, forced up to at
least 90 exactly when one normalized string contains the other and the
token-set score is at least 60, observed through the matcher on a
one-candidate pool. -/
theorem C3_pass2_combined_score (s4 : String → String → ℚ) (q ncol : String) (r : Row)
    (hname : rowName r ncol ≠ "") :
    best_match_base_row_relaxed s4 q [r] ncol =
      (some r,
        if (isSub (normalize_text q) (normalize_text (rowName r ncol))
              || isSub (normalize_text (rowName r ncol)) (normalize_text q))
            ∧ 60 ≤ token_set_score q (rowName r ncol) then
          max (max (max (max (fuzzy_ratio q (rowName r ncol)) (token_set_score q (rowName r ncol)))
            (trigram_jaccard q (rowName r ncol))) (s4 q (rowName r ncol))) 90
        else
          max (max (max (fuzzy_ratio q (rowName r ncol)) (token_set_score q (rowName r ncol)))
            (trigram_jaccard q (rowName r ncol))) (s4 q (rowName r ncol))) := by
  have hp : pass2Score s4 q (rowName r ncol) =
      (if (isSub (normalize_text q) (normalize_text (rowName r ncol))
            || isSub (normalize_text (rowName r ncol)) (normalize_text q))
          ∧ 60 ≤ token_set_score q (rowName r ncol) then
        max (max (max (max (fuzzy_ratio q (rowName r ncol)) (token_set_score q (rowName r ncol)))
          (trigram_jaccard q (rowName r ncol))) (s4 q (rowName r ncol))) 90
      else
        max (max (max (fuzzy_ratio q (rowName r ncol)) (token_set_score q (rowName r ncol)))
          (trigram_jaccard q (rowName r ncol))) (s4 q (rowName r ncol))) := by
    unfold pass2Score maxMetrics
    rfl
  have hpos : ((none : Option Row), (-1 : ℚ)).2 < pass2Score s4 q (rowName r ncol) := by
    have := pass2Score_nonneg s4 q (rowName r ncol)
    simp only
    linarith
  unfold best_match_base_row_relaxed bestFold
  rw [List.foldl_cons, List.foldl_nil]
  unfold bmStep
  rw [if_neg hname]
  rw [if_pos hpos]
  show (some r, pass2Score s4 q (rowName r ncol)) = _
  rw [hp]

/-- C3 witness: on the identical one-candidate pool the containment boost
condition holds with token-set score 100, and the boosted maximum is
still 100. -/
theorem C3_witness :
    best_match_base_row_relaxed (fun _ _ => 0) "ab" [[("name", some "ab")]] "name" =
      (some [("name", some "ab")], 100) := by
  have h := C3_pass2_combined_score (fun _ _ => 0) "ab" "name" [("name", some "ab")]
    (by rw [eval_rowName_ab]; decide)
  rw [h, eval_rowName_ab]
  rw [if_pos ⟨by decide, by rw [eval_tss_ab]; norm_num⟩]
  rw [eval_fuzzy_ab, eval_tss_ab, eval_tj_ab]
  norm_num

/-- C4: in both passes, a returned candidate attains the highest
penalized or boosted score among all candidates with a non-empty name,
and every candidate listed before it scores strictly lower, so the first
candidate in iteration order wins ties. -/
theorem C4_argmax_first_wins (s4 : String → String → ℚ) (q ncol : String)
    (rows : List Row) (r : Row) (s : ℚ) :
    (best_match_base_row s4 q rows ncol = (some r, s) →
      ∃ l1 l2, rows = l1 ++ r :: l2 ∧ rowName r ncol ≠ "" ∧
        s = pass1Score s4 q (rowName r ncol) ∧
        (∀ r2 ∈ rows, rowName r2 ncol ≠ "" → pass1Score s4 q (rowName r2 ncol) ≤ s) ∧
        (∀ r2 ∈ l1, rowName r2 ncol ≠ "" → pass1Score s4 q (rowName r2 ncol) < s)) ∧
    (best_match_base_row_relaxed s4 q rows ncol = (some r, s) →
      ∃ l1 l2, rows = l1 ++ r :: l2 ∧ rowName r ncol ≠ "" ∧
        s = pass2Score s4 q (rowName r ncol) ∧
        (∀ r2 ∈ rows, rowName r2 ncol ≠ "" → pass2Score s4 q (rowName r2 ncol) ≤ s) ∧
        (∀ r2 ∈ l1, rowName r2 ncol ≠ "" → pass2Score s4 q (rowName r2 ncol) < s)) := by
  constructor
  · intro h
    exact bf_argmax (fun r2 => pass1Score s4 q (rowName r2 ncol)) ncol rows r s h
  · intro h
    exact bf_argmax (fun r2 => pass2Score s4 q (rowName r2 ncol)) ncol rows r s h

/-- C4 witness: on the singleton pool the returned row is the single
candidate in first position with the top score. -/
theorem C4_witness :
    ∃ l1 l2, ([[("name", some "ab")]] : List Row) = l1 ++ [("name", some "ab")] :: l2 ∧
      rowName [("name", some "ab")] "name" ≠ "" ∧
      (100 : ℚ) = pass1Score (fun _ _ => 0) "ab" (rowName [("name", some "ab")] "name") ∧
      (∀ r2 ∈ ([[("name", some "ab")]] : List Row), rowName r2 "name" ≠ "" →
        pass1Score (fun _ _ => 0) "ab" (rowName r2 "name") ≤ 100) ∧
      (∀ r2 ∈ ([] : List Row), rowName r2 "name" ≠ "" →
        pass1Score (fun _ _ => 0) "ab" (rowName r2 "name") < 100) := by
  obtain ⟨l1, l2, h1, h2, h3, h4, _⟩ :=
    (C4_argmax_first_wins (fun _ _ => 0) "ab" "name" [[("name", some "ab")]]
      [("name", some "ab")] 100).1 eval_bm_ab
  have hl1 : l1 = [] := by
    cases l1 with
    | nil => rfl
    | cons x xs =>
      have := congrArg List.length h1
      simp at this
  subst hl1
  exact ⟨[], l2, h1, h2, h3, h4, by simp⟩

/-- C9: for the same query and candidate pool, the best score of the
relaxed second pass is at least the best score of the anchor-penalized
first pass, because per candidate dropping the 0.9 penalty and possibly
boosting can only raise the score. -/
theorem C9_relaxed_ge_pass1 (s4 : String → String → ℚ) (q ncol : String)
    (rows : List Row) :
    (best_match_base_row s4 q rows ncol).2 ≤
      (best_match_base_row_relaxed s4 q rows ncol).2 := by
  unfold best_match_base_row best_match_base_row_relaxed bestFold
  exact bf_mono _ _ ncol
    (fun r _ => pass1Score_le_pass2Score s4 q (rowName r ncol))
    rows (none, -1) (none, -1) (le_refl _)

/-- C10: both passes return (None, -1.0) exactly when no candidate row
has a non-empty name-column value; otherwise they return some candidate
row with a score between 0 and 100. -/
theorem C10_none_iff_empty_and_bounds (s4 : String → String → ℚ)
    (h4 : ∀ x y, s4 x y ≤ 100) (q ncol : String) (rows : List Row) :
    (best_match_base_row s4 q rows ncol = (none, -1) ↔
      ∀ r ∈ rows, rowName r ncol = "") ∧
    ((∃ r ∈ rows, rowName r ncol ≠ "") →
      ∃ r s, best_match_base_row s4 q rows ncol = (some r, s) ∧ 0 ≤ s ∧ s ≤ 100) ∧
    (best_match_base_row_relaxed s4 q rows ncol = (none, -1) ↔
      ∀ r ∈ rows, rowName r ncol = "") ∧
    ((∃ r ∈ rows, rowName r ncol ≠ "") →
      ∃ r s, best_match_base_row_relaxed s4 q rows ncol = (some r, s) ∧ 0 ≤ s ∧ s ≤ 100) := by
  have h1 := bf_full (fun r => pass1Score s4 q (rowName r ncol)) ncol rows
    (fun r _ => pass1Score_nonneg s4 q (rowName r ncol))
    (fun r _ => pass1Score_le_100 s4 q (rowName r ncol) (h4 q (rowName r ncol)))
  have h2 := bf_full (fun r => pass2Score s4 q (rowName r ncol)) ncol rows
    (fun r _ => pass2Score_nonneg s4 q (rowName r ncol))
    (fun r _ => pass2Score_le_100 s4 q (rowName r ncol) (h4 q (rowName r ncol)))
  exact ⟨h1.1, h1.2, h2.1, h2.2⟩

/-- C10 witness: the singleton pool with a named row yields a candidate
with a score inside the bounds, under the constant-zero phonetic metric. -/
theorem C10_witness :
    ∃ r s, best_match_base_row (fun _ _ => 0) "ab" [[("name", some "ab")]] "name" =
      (some r, s) ∧ 0 ≤ s ∧ s ≤ 100 :=
  (C10_none_iff_empty_and_bounds (fun _ _ => 0) (fun _ _ => by norm_num) "ab" "name"
    [[("name", some "ab")]]).2.1
    ⟨[("name", some "ab")], List.mem_singleton_self _, by rw [eval_rowName_ab]; decide⟩

theorem round2_200_3 : round2 (200 / 3) = 6667 / 100 := by
  unfold round2 rhe
  norm_num

/-- C5 counterexample: the code rounds the Dice score to two decimals, so
for token sets of sizes 1 and 2 the stored score 66.67 differs from the
exact scaled Dice value 200/3. -/
theorem C5_counterexample :
    token_set_score "comte" "comte wheel" ≠
      2 * ((((tokenize "comte") ∩ (tokenize "comte wheel")).card : ℚ)) /
        (((tokenize "comte").card : ℚ) + ((tokenize "comte wheel").card : ℚ)) * 100 := by
  unfold token_set_score
  rw [show tokenize "comte" = {"comte"} from by decide,
      show tokenize "comte wheel" = ({"comte", "wheel"} : Finset String) from by decide]
  rw [if_neg (by decide)]
  rw [show ((({"comte"} : Finset String) ∩ ({"comte", "wheel"} : Finset String)).card) = 1
        from by decide,
      show (({"comte"} : Finset String).card) = 1 from by decide,
      show (({"comte", "wheel"} : Finset String).card) = 2 from by decide]
  norm_num [round2, rhe]

/-- C5 as amended: the token-set score is the Dice coefficient
2|A∩B|/(|A|+|B|) of the folded token sets, scaled to 0..100 and rounded
to two decimal places, 0 when either token set is empty; tokens shorter
than two characters and stopwords are removed, and the domain synonyms
laib, rad and meule all fold to wheel. -/
theorem C5_token_set_dice (a b : String) :
    token_set_score a b =
      (if tokenize a = ∅ ∨ tokenize b = ∅ then 0
       else round2 ((2 * (((tokenize a) ∩ (tokenize b)).card : ℚ)) /
         (((tokenize a).card : ℚ) + ((tokenize b).card : ℚ)) * 100)) ∧
    (∀ t ∈ tokenize a, 1 < t.length ∧ t ∉ stop_tokens) ∧
    tokenize "Laib" = {"wheel"} ∧ tokenize "rad" = {"wheel"} ∧
    tokenize "meule" = {"wheel"} := by
  refine ⟨rfl, ?_, by decide, by decide, by decide⟩
  intro t ht
  unfold tokenize at ht
  exact (Finset.mem_filter.mp ht).2

/-- C5 witness: the amended formula evaluates the example pair to the
two-decimal value 66.67. -/
theorem C5_witness : token_set_score "comte" "comte wheel" = 6667 / 100 := by
  have h := (C5_token_set_dice "comte" "comte wheel").1
  rw [h]
  rw [show tokenize "comte" = {"comte"} from by decide,
      show tokenize "comte wheel" = ({"comte", "wheel"} : Finset String) from by decide]
  rw [if_neg (by decide)]
  rw [show ((({"comte"} : Finset String) ∩ ({"comte", "wheel"} : Finset String)).card) = 1
        from by decide,
      show (({"comte"} : Finset String).card) = 1 from by decide,
      show (({"comte", "wheel"} : Finset String).card) = 2 from by decide]
  norm_num [round2, rhe]

/-- C6: evaluation of the normalizer at the spec example pair: the NFKD
diacritic strip runs before the final umlaut replacements, so the umlaut
spelling Käse-Räucherwürste becomes kase raucherwurste while the ae/ue
spelling is left unchanged, and the two outputs differ, contradicting the
claimed equality. -/
theorem C6_normalizer_divergence :
    normalize_text "Käse-Räucherwürste" = "kase raucherwurste" ∧
    normalize_text "kaese raeucherwuerste" = "kaese raeucherwuerste" ∧
    normalize_text "Käse-Räucherwürste" ≠ normalize_text "kaese raeucherwuerste" :=
  ⟨by decide, by decide, by decide⟩

/-- C7: parse_decimal (modelled from the spec, the source removed it) is
total by construction, strips the euro sign and spaces first, treats a
single comma as the decimal separator after removing periods, and returns
none rather than failing on unparseable text. -/
theorem C7_parse_decimal_spec :
    parse_decimal "1.234,56" = some (1234.56 : ℚ) ∧
    parse_decimal "19,5" = some (19.5 : ℚ) ∧
    parse_decimal "abc" = none ∧
    parse_decimal "€ 19,5" = some (19.5 : ℚ) := by
  refine ⟨?_, ?_, ?_, ?_⟩
  · unfold parse_decimal
    rw [show pd_text "1.234,56" = "1234.56" from by decide]
    rw [floatParse_num "1234.56" "1234.56".toList
        ((digitsVal "1234".toList : ℚ) + (digitsVal "56".toList : ℚ) / 10 ^ ("56".toList.length))
        (by decide) (by decide) (by decide)
        (decParse_point "1234.56".toList "1234".toList "56".toList
          (by decide) (by decide) (by decide) (by decide) (by decide))]
    rw [show digitsVal "1234".toList = 1234 from by decide,
        show digitsVal "56".toList = 56 from by decide,
        show ("56".toList.length) = 2 from by decide]
    simp only [Option.some.injEq]
    norm_num
  · unfold parse_decimal
    rw [show pd_text "19,5" = "19.5" from by decide]
    rw [floatParse_num "19.5" "19.5".toList
        ((digitsVal "19".toList : ℚ) + (digitsVal "5".toList : ℚ) / 10 ^ ("5".toList.length))
        (by decide) (by decide) (by decide)
        (decParse_point "19.5".toList "19".toList "5".toList
          (by decide) (by decide) (by decide) (by decide) (by decide))]
    rw [show digitsVal "19".toList = 19 from by decide,
        show digitsVal "5".toList = 5 from by decide,
        show ("5".toList.length) = 1 from by decide]
    simp only [Option.some.injEq]
    norm_num
  · unfold parse_decimal
    rw [show pd_text "abc" = "abc" from by decide]
    decide
  · unfold parse_decimal
    rw [show pd_text "€ 19,5" = "19.5" from by decide]
    rw [floatParse_num "19.5" "19.5".toList
        ((digitsVal "19".toList : ℚ) + (digitsVal "5".toList : ℚ) / 10 ^ ("5".toList.length))
        (by decide) (by decide) (by decide)
        (decParse_point "19.5".toList "19".toList "5".toList
          (by decide) (by decide) (by decide) (by decide) (by decide))]
    rw [show digitsVal "19".toList = 19 from by decide,
        show digitsVal "5".toList = 5 from by decide,
        show ("5".toList.length) = 1 from by decide]
    simp only [Option.some.injEq]
    norm_num

theorem match_one_pass_tie (s4 : String → String → ℚ) (T R : ℚ)
    (rows : List Row) (ncol base : String) (r : Row) (sc : ℚ)
    (h : match_one s4 T R rows ncol base = some (r, sc)) :
    (sc = (best_match_base_row s4 base rows ncol).2 ∧ T ≤ sc) ∨
    (((best_match_base_row s4 base rows ncol).1 = none ∨
        (best_match_base_row s4 base rows ncol).2 < T) ∧
      sc = (best_match_base_row_relaxed s4 base rows ncol).2 ∧ R ≤ sc) := by
  unfold match_one at h
  split_ifs at h with h1 h2
  · push_neg at h2
    rw [Option.map_eq_some'] at h
    obtain ⟨r0, hopt, hfb⟩ := h
    obtain ⟨hreq, hsc⟩ := Prod.ext_iff.mp hfb
    simp only at hreq hsc
    exact Or.inr ⟨h1, hsc.symm, hsc ▸ h2.2⟩
  · push_neg at h1
    rw [Option.map_eq_some'] at h
    obtain ⟨r0, hopt, hfb⟩ := h
    obtain ⟨hreq, hsc⟩ := Prod.ext_iff.mp hfb
    simp only at hreq hsc
    exact Or.inl ⟨hsc.symm, hsc ▸ h1.2⟩

/-- C8 counterexample: with MATCH_THRESHOLD set to the string nan,
float() succeeds with nan and both clamp comparisons are false on nan, so
the effective primary threshold is nan rather than a value clamped into
0..100 (and the relaxed threshold inherits the same hole); the claimed
clamp fails at this configuration. -/
theorem C8_counterexample :
    get_match_threshold (some "nan") = PyFloat.nan ∧
    get_relaxed_threshold none (some "nan") = PyFloat.nan ∧
    ¬ ∃ q : ℚ, get_match_threshold (some "nan") = PyFloat.num q ∧ 0 ≤ q ∧ q ≤ 100 := by
  have h1 : get_match_threshold (some "nan") = PyFloat.nan := by decide
  refine ⟨h1, by decide, ?_⟩
  rintro ⟨q, hq, -, -⟩
  rw [h1] at hq
  exact PyFloat.noConfusion hq

/-- C8 as amended: each effective threshold is a rational clamped into
0..100 unless its environment string parses as nan, which escapes the
clamp; each accepted match records the best score of the pass that
accepted it, at least that threshold; and when the effective thresholds
are the rationals T and R, every persisted definition carries a score in
0..100 reaching T or R, no metric combination exceeding 100 provided the
phonetic metric stays inside 0..100 as jellyfish guarantees. -/
theorem C8_persisted_scores (s4 : String → String → ℚ)
    (hs4 : ∀ x y, 0 ≤ s4 x y ∧ s4 x y ≤ 100) :
    (∀ envT,
      (∃ q : ℚ, get_match_threshold envT = PyFloat.num q ∧ 0 ≤ q ∧ q ≤ 100) ∨
      (get_match_threshold envT = PyFloat.nan ∧
        ∃ s, envT = some s ∧ ¬ s = "" ∧ pyFloatParse s = some PyFloat.nan)) ∧
    (∀ envT envR,
      (∃ q : ℚ, get_relaxed_threshold envT envR = PyFloat.num q ∧ 0 ≤ q ∧ q ≤ 100) ∨
      get_relaxed_threshold envT envR = PyFloat.nan) ∧
    (∀ (T R : ℚ) (rows : List Row) (ncol base : String) (r : Row) (sc : ℚ),
      match_one s4 T R rows ncol base = some (r, sc) →
        (sc = (best_match_base_row s4 base rows ncol).2 ∧ T ≤ sc) ∨
        (((best_match_base_row s4 base rows ncol).1 = none ∨
            (best_match_base_row s4 base rows ncol).2 < T) ∧
          sc = (best_match_base_row_relaxed s4 base rows ncol).2 ∧ R ≤ sc)) ∧
    (∀ (envT envR : Option String) (T R : ℚ)
        (cache : String → List Row) (ncol : String)
        (defs : List (String × String × String)),
      get_match_threshold envT = PyFloat.num T →
      get_relaxed_threshold envT envR = PyFloat.num R →
      ∀ e ∈ (process_batch s4 T R cache ncol defs).1,
        (0 ≤ e.2.2.2 ∧ e.2.2.2 ≤ 100) ∧ (T ≤ e.2.2.2 ∨ R ≤ e.2.2.2)) := by
  refine ⟨get_match_threshold_cases,
    fun envT envR => get_relaxed_threshold_cases envT envR, ?_, ?_⟩
  · intro T R rows ncol base r sc h
    exact match_one_pass_tie s4 T R rows ncol base r sc h
  · intro envT envR T R cache ncol defs hT hR
    have hP : ∀ (rows : List Row) (base : String) (r : Row) (sc : ℚ),
        match_one s4 T R rows ncol base = some (r, sc) →
        (0 ≤ sc ∧ sc ≤ 100) ∧ (T ≤ sc ∨ R ≤ sc) := by
      intro rows base r sc hmo
      obtain ⟨hTR, hform⟩ := match_one_accepted _ _ _ _ _ _ _ _ hmo
      refine ⟨?_, hTR⟩
      rcases hform with hf | hf
      · rw [hf]
        exact ⟨pass1Score_nonneg _ _ _,
          pass1Score_le_100 _ _ _ (hs4 base (rowName r ncol)).2⟩
      · rw [hf]
        exact ⟨pass2Score_nonneg _ _ _,
          pass2Score_le_100 _ _ _ (hs4 base (rowName r ncol)).2⟩
    have key := pb_mem s4 T R cache ncol
      (fun sc => (0 ≤ sc ∧ sc ≤ 100) ∧ (T ≤ sc ∨ R ≤ sc)) hP defs ([], 0) (by simp)
    unfold process_batch
    exact key

/-- C8 witness: with MATCH_THRESHOLD missing, the primary threshold is a
rational inside the clamp bounds, under the constant-zero phonetic
metric. -/
theorem C8_witness :
    (∃ q : ℚ, get_match_threshold none = PyFloat.num q ∧ 0 ≤ q ∧ q ≤ 100) ∨
    (get_match_threshold none = PyFloat.nan ∧
      ∃ s, (none : Option String) = some s ∧ ¬ s = "" ∧
        pyFloatParse s = some PyFloat.nan) :=
  (C8_persisted_scores (fun _ _ => 0) (fun _ _ => ⟨le_refl 0, by norm_num⟩)).1 none
